import Mathlib

/-!
Verification development for the md_structured_retrieval engine.

The TypeScript source is shallowly embedded: strings are Lean `String`s or
`List Char` (JavaScript strings are sequences of UTF-16 code units; where the
code-unit level matters it is modelled explicitly), numbers are `Nat`/`Int`
with explicit `% 2 ^ 32` where JavaScript truncates to 32 bits, and scores
are `ℚ` (the IEEE doubles of the source are modelled exactly by the same
decimal literals). Fallible operations return `Except`/error options.
External crypto (SHA-256 ids) and the injected token counter are parameters,
as they are constructor-injected dependencies in the source.
-/

namespace MSRL

/-- JavaScript `String.prototype.slice(i, j)` on a list of characters. -/
def jsSlice (s : List Char) (i j : Nat) : List Char :=
  (s.drop i).take (j - i)

/-- JavaScript `String.prototype.trim()` on a list of characters. -/
def jsTrimList (s : List Char) : List Char :=
  ((s.dropWhile Char.isWhitespace).reverse.dropWhile Char.isWhitespace).reverse

/-- JavaScript `String.prototype.trim()` on a `String`. -/
def jsTrim (s : String) : String :=
  ⟨jsTrimList s.data⟩

/-- JavaScript `startsWith` modelled as a prefix test over the characters. -/
def jsStartsWith (s p : String) : Bool :=
  p.data.isPrefixOf s.data

/-- JavaScript `includes` (substring test) over lists of characters. -/
def listIncludes (needle : List Char) : List Char → Bool
  | [] => needle.isEmpty
  | c :: rest => needle.isPrefixOf (c :: rest) || listIncludes needle rest

/-- JavaScript `includes` on `String`s. -/
def jsIncludes (hay needle : String) : Bool :=
  listIncludes needle.data hay.data

/-- JavaScript `toLowerCase` (modelled character-wise with `Char.toLower`). -/
def jsToLower (s : String) : String :=
  ⟨s.data.map Char.toLower⟩

/-- JavaScript `Array.prototype.join(sep)`. -/
def joinSep (sep : List Char) : List (List Char) → List Char
  | [] => []
  | [x] => x
  | x :: y :: rest => x ++ sep ++ joinSep sep (y :: rest)

/-- Keys of JavaScript `Map` insertion order: first occurrence wins. -/
def keysFirst (ks : List String) : List String :=
  ks.foldl (fun acc k => if k ∈ acc then acc else acc ++ [k]) []

/-- Value stored in a JavaScript `Map` after repeated `set`: the last
occurrence of the key wins. -/
def lookupLast {β : Type} (l : List (String × β)) (k : String) : Option β :=
  l.reverse.lookup k

/-! ## ShardRouter (src shard-router: `fnv1a32`, `ShardRouter.getShardId`)

The source iterates `input.charCodeAt(i)` — UTF-16 code units — XORs each
unit into the hash and multiplies with `Math.imul` (32-bit truncating
multiplication), finishing with `>>> 0`.  All arithmetic is modelled on
`Nat` modulo `2 ^ 32`, which agrees bit-for-bit with the two's-complement
view of the source. -/

/-- FNV-1a 32-bit hash over a sequence of integer units, as the source
computes it (`hash ^= unit; hash = Math.imul(hash, 0x01000193)`). -/
def fnv1a32 (units : List Nat) : Nat :=
  units.foldl (fun h c => ((h ^^^ c) * 16777619) % 4294967296) 2166136261

/-- The UTF-16 code units of one Unicode code point (JavaScript's string
elements): BMP code points are one unit, others a surrogate pair. -/
def utf16EncodeChar (c : Char) : List Nat :=
  if c.toNat < 65536 then [c.toNat]
  else
    let v := c.toNat - 65536
    [55296 + v / 1024, 56320 + v % 1024]

/-- The sequence of UTF-16 code units of a string (`charCodeAt` order). -/
def utf16Units (s : String) : List Nat :=
  s.data.flatMap utf16EncodeChar

/-- The UTF-8 bytes of one Unicode code point. -/
def utf8EncodeChar (c : Char) : List Nat :=
  let n := c.toNat
  if n < 128 then [n]
  else if n < 2048 then [192 + n / 64, 128 + n % 64]
  else if n < 65536 then [224 + n / 4096, 128 + n / 64 % 64, 128 + n % 64]
  else [240 + n / 262144, 128 + n / 4096 % 64, 128 + n / 64 % 64, 128 + n % 64]

/-- The UTF-8 byte encoding of a string. -/
def utf8Bytes (s : String) : List Nat :=
  s.data.flatMap utf8EncodeChar

/-- `ShardRouter.getShardId`: FNV-1a over the string as the source hashes it
(UTF-16 code units via `charCodeAt`), reduced modulo the shard count. -/
def getShardId (docUri : String) (shardCount : Nat) : Nat :=
  fnv1a32 (utf16Units docUri) % shardCount

/-- Modelled from the spec's words (for comparison with `getShardId`): the
spec demands `FNV1a32(utf8(docUri)) mod SHARD_COUNT`. -/
def specShardIdUtf8 (docUri : String) (shardCount : Nat) : Nat :=
  fnv1a32 (utf8Bytes docUri) % shardCount

/-! ## HybridScorer (src hybrid-scorer) -/

/-- A vector search candidate. -/
structure VectorResult where
  leafId : String
  vectorScore : ℚ
deriving DecidableEq

/-- A BM25 search candidate, optionally carrying a vector score computed
from the cached embedding. -/
structure BM25Result where
  leafId : String
  bm25Score : ℚ
  cachedVectorScore : Option ℚ := none
deriving DecidableEq

/-- A fused candidate. -/
structure HybridResult where
  leafId : String
  score : ℚ
  vectorScore : ℚ
  bm25Score : ℚ
deriving DecidableEq

/-- Fusion weights. -/
structure HybridWeights where
  vector : ℚ
  bm25 : ℚ
deriving DecidableEq

/-- `DEFAULT_HYBRID_WEIGHTS` of the source: vector 0.7, bm25 0.3. -/
def DEFAULT_HYBRID_WEIGHTS : HybridWeights :=
  { vector := 7/10, bm25 := 3/10 }

/-- The `HybridScorer` constructor's validation: weights must sum to 1
within 0.001, else it throws. -/
def mkHybridScorer (w : HybridWeights) : Except String HybridWeights :=
  if |w.vector + w.bm25 - 1| > 1/1000 then
    .error "Hybrid weights must sum to 1.0"
  else
    .ok w

/-- The comparator of `HybridScorer.fuse`'s final sort, as a relation:
`a` sorts before `b` when its score is larger, ties broken by `leafId`
ascending (`localeCompare` modelled as the lexicographic string order). -/
def fuseRel (a b : HybridResult) : Prop :=
  b.score < a.score ∨ (a.score = b.score ∧ a.leafId ≤ b.leafId)

instance : DecidableRel fuseRel := fun a b => by
  unfold fuseRel; infer_instance

instance : IsTotal HybridResult fuseRel := by
  constructor
  intro a b
  rcases lt_trichotomy a.score b.score with h | h | h
  · exact Or.inr (Or.inl h)
  · rcases le_total a.leafId b.leafId with hb | hb
    · exact Or.inl (Or.inr ⟨h, hb⟩)
    · exact Or.inr (Or.inr ⟨h.symm, hb⟩)
  · exact Or.inl (Or.inl h)

instance : IsTrans HybridResult fuseRel := by
  constructor
  intro a b c hab hbc
  rcases hab with h1 | ⟨h1, h1'⟩ <;> rcases hbc with h2 | ⟨h2, h2'⟩
  · exact Or.inl (h2.trans h1)
  · exact Or.inl (h2 ▸ h1)
  · exact Or.inl (h1 ▸ h2)
  · exact Or.inr ⟨h1.trans h2, le_trans h1' h2'⟩

/-- The per-key score computation inside `HybridScorer.fuse`:
`vectorMap.get(id) ?? bm25Map.get(id)?.cachedVectorScore ?? 0` and
`bm25Map.get(id)?.bm25Score ?? 0`, fused with the weights. -/
def fuseOne (w : HybridWeights) (vectorMap : List (String × ℚ))
    (bm25Map : List (String × BM25Result)) (leafId : String) : HybridResult :=
  let vectorScore :=
    match lookupLast vectorMap leafId with
    | some v => v
    | none =>
      match lookupLast bm25Map leafId with
      | some r => r.cachedVectorScore.getD 0
      | none => 0
  let bm25Score :=
    match lookupLast bm25Map leafId with
    | some r => r.bm25Score
    | none => 0
  { leafId := leafId
    score := w.vector * vectorScore + w.bm25 * bm25Score
    vectorScore := vectorScore
    bm25Score := bm25Score }

/-- `HybridScorer.fuse`: build the two maps, take the union of the key sets
(insertion order), compute each hybrid score, and sort with `fuseRel`. -/
def fuse (w : HybridWeights) (vectorResults : List VectorResult)
    (bm25Results : List BM25Result) : List HybridResult :=
  let vectorMap := vectorResults.map fun r => (r.leafId, r.vectorScore)
  let bm25Map := bm25Results.map fun r => (r.leafId, r)
  let allLeafIds := keysFirst (vectorMap.map Prod.fst ++ bm25Map.map Prod.fst)
  let results := allLeafIds.map (fuseOne w vectorMap bm25Map)
  results.insertionSort fuseRel

/-! ## SpanMerger (src span-merger) -/

/-- A candidate span before merging. -/
structure Span where
  docUri : String
  startChar : Nat
  endChar : Nat
  score : ℚ
  leafIds : List String
deriving DecidableEq

/-- The grouping step of `SpanMerger.mergeWithGap`: group spans by document,
preserving first-seen document order and within-document order (JavaScript
`Map` semantics). -/
def groupByDoc (spans : List Span) : List (String × List Span) :=
  spans.foldl
    (fun acc s =>
      if acc.any (fun e => e.1 = s.docUri) then
        acc.map (fun e => if e.1 = s.docUri then (e.1, e.2 ++ [s]) else e)
      else acc ++ [(s.docUri, [s])])
    []

/-- The within-document sort of `SpanMerger.mergeWithGap`:
`sort((a, b) => a.startChar - b.startChar)`, ascending and stable. -/
def spanStartRel (a b : Span) : Prop := a.startChar ≤ b.startChar

instance : DecidableRel spanStartRel := fun a b => by
  unfold spanStartRel; infer_instance

instance : IsTotal Span spanStartRel :=
  ⟨fun a b => Nat.le_total a.startChar b.startChar⟩

instance : IsTrans Span spanStartRel :=
  ⟨fun _ _ _ h h' => Nat.le_trans h h'⟩

/-- The merge fold over one document's sorted spans. -/
def mergeRun (gapThreshold : Nat) : List Span → Option Span → List Span
  | [], none => []
  | [], some cur => [cur]
  | s :: rest, none => mergeRun gapThreshold rest (some s)
  | s :: rest, some cur =>
    if s.startChar ≤ cur.endChar + gapThreshold then
      mergeRun gapThreshold rest
        (some { cur with
                  endChar := max cur.endChar s.endChar
                  score := max cur.score s.score
                  leafIds :=
                    cur.leafIds ++ s.leafIds.filter (fun id => id ∉ cur.leafIds) })
    else
      cur :: mergeRun gapThreshold rest (some s)

/-- The final sort of `SpanMerger.mergeWithGap`:
`sort((a, b) => b.score - a.score)`, descending and stable. -/
def spanScoreRel (a b : Span) : Prop := b.score ≤ a.score

instance : DecidableRel spanScoreRel := fun a b => by
  unfold spanScoreRel; infer_instance

instance : IsTotal Span spanScoreRel := ⟨fun a b => le_total b.score a.score⟩

instance : IsTrans Span spanScoreRel := ⟨fun _ _ _ h h' => le_trans h' h⟩

/-- `SpanMerger.mergeWithGap`. -/
def mergeWithGap (spans : List Span) (gapThreshold : Nat) : List Span :=
  if spans = [] then []
  else
    let byDoc := groupByDoc spans
    let results := byDoc.flatMap fun e =>
      mergeRun gapThreshold (e.2.insertionSort spanStartRel) none
    results.insertionSort spanScoreRel

/-- `SpanMerger.merge`: gap threshold 0. -/
def spanMerge (spans : List Span) : List Span :=
  mergeWithGap spans 0

/-! ## RetrievalPipeline (src retrieval-pipeline, the variant with the four
filters, cited by the claims) -/

/-- Leaf metadata loaded for a candidate. -/
structure LeafMetadata where
  docUri : String
  headingPath : String
  startChar : Nat
  endChar : Nat
deriving DecidableEq

/-- The optional filter object of `QueryParams`. -/
structure QueryFilter where
  docUriPrefix : Option String := none
  docUris : Option (List String) := none
  headingPathPrefix : Option String := none
  headingPathContains : Option String := none
deriving DecidableEq

/-- Query parameters of `RetrievalPipeline.query`. -/
structure QueryParams where
  query : String
  limit : Nat
  filter : Option QueryFilter := none
deriving DecidableEq

/-- One search result. -/
structure SearchResult where
  docUri : String
  headingPath : String
  startChar : Nat
  endChar : Nat
  excerpt : String
  excerptTruncated : Bool
  score : ℚ
  vectorScore : ℚ
  bm25Score : ℚ
deriving DecidableEq

/-- The meta block of a query result. -/
structure QueryMeta where
  tookMs : Nat
deriving DecidableEq

/-- A query result. -/
structure QueryResult where
  results : List SearchResult
  meta : QueryMeta
deriving DecidableEq

/-- An extracted excerpt. -/
structure ExcerptResult where
  excerpt : String
  truncated : Bool
deriving DecidableEq

/-- The injected `PipelineDependencies` (vector search, BM25 search, leaf
metadata lookup, excerpt extraction), modelled as pure functions. -/
structure PipelineDeps where
  vectorSearch : String → Nat → List VectorResult
  bm25Search : String → Nat → List BM25Result
  getLeafMetadata : String → Option LeafMetadata
  extractExcerpt : String → Nat → Nat → ExcerptResult

/-- `RetrievalPipeline.matchesFilters`: each check rejects when the filter
field is truthy (present and non-empty) and the candidate fails it.
`docUris` restricts only when the list is non-empty; `headingPathContains`
compares lower-cased strings with `includes`. -/
def matchesFilters (metadata : LeafMetadata) (filter : Option QueryFilter) : Bool :=
  match filter with
  | none => true
  | some f =>
    let check1 :=
      match f.docUriPrefix with
      | some p => p = "" || jsStartsWith metadata.docUri p
      | none => true
    let check2 :=
      match f.docUris with
      | some us => us.length = 0 || metadata.docUri ∈ us
      | none => true
    let check3 :=
      match f.headingPathPrefix with
      | some p => p = "" || jsStartsWith metadata.headingPath p
      | none => true
    let check4 :=
      match f.headingPathContains with
      | some c =>
        c = "" || jsIncludes (jsToLower metadata.headingPath) (jsToLower c)
      | none => true
    check1 && check2 && check3 && check4

/-- `RetrievalPipeline.query`.  The two timing reads (`Date.now()` at entry
and at return) are modelled by the elapsed-time parameter `tookMs`. -/
def pipelineQuery (deps : PipelineDeps) (params : QueryParams)
    (tookMs : Nat) : QueryResult :=
  if jsTrim params.query = "" then
    { results := [], meta := { tookMs := tookMs } }
  else
    let fetchLimit := params.limit * 3
    let vectorResults := deps.vectorSearch params.query fetchLimit
    let bm25Results := deps.bm25Search params.query fetchLimit
    let hybridResults := fuse DEFAULT_HYBRID_WEIGHTS vectorResults bm25Results
    let resultsWithMetadata :=
      hybridResults.filterMap fun hr =>
        match deps.getLeafMetadata hr.leafId with
        | none => none
        | some metadata =>
          if matchesFilters metadata params.filter then
            some (hr, metadata)
          else none
    let spans : List Span := resultsWithMetadata.map fun r =>
      { docUri := r.2.docUri
        startChar := r.2.startChar
        endChar := r.2.endChar
        score := r.1.score
        leafIds := [r.1.leafId] }
    let mergedSpans := spanMerge spans
    let results := (mergedSpans.take params.limit).filterMap fun span =>
      match resultsWithMetadata.find? (fun r => r.1.leafId ∈ span.leafIds) with
      | none => none
      | some leafData =>
        let excerptResult := deps.extractExcerpt span.docUri span.startChar span.endChar
        some
          { docUri := span.docUri
            headingPath := leafData.2.headingPath
            startChar := span.startChar
            endChar := span.endChar
            excerpt := excerptResult.excerpt
            excerptTruncated := excerptResult.truncated
            score := span.score
            vectorScore := leafData.1.vectorScore
            bm25Score := leafData.1.bm25Score }
    { results := results, meta := { tookMs := tookMs } }

/-! ## MsrlEngine.query (src engine) -/

/-- The stable error codes surfaced by the engine (src errors). -/
inductive MsrlErrorCode where
  | invalidArgument (field : String)
  | notIndexed
  | indexBusy
  | internal
deriving DecidableEq

/-- The retrieval section of the resolved configuration, with the schema
defaults of the config module (`vectorWeight` 0.75, `bm25Weight` 0.25,
`defaultTopK` 8, `maxTopK` 50, `defaultMaxExcerptChars` 4000,
`maxMaxExcerptChars` 20000). -/
structure RetrievalConfig where
  vectorWeight : ℚ := 3/4
  bm25Weight : ℚ := 1/4
  defaultTopK : Nat := 8
  maxTopK : Nat := 50
  defaultMaxExcerptChars : Nat := 4000
  maxMaxExcerptChars : Nat := 20000
deriving DecidableEq

/-- Query parameters of `MsrlEngine.query`. -/
structure EngineQueryParams where
  query : String
  topK : Option Nat := none
  maxExcerptChars : Option Nat := none
  filters : Option QueryFilter := none
deriving DecidableEq

/-- `MsrlEngine.query`: fail `NOT_INDEXED` without a snapshot, reject an
empty or whitespace-only query as `INVALID_ARGUMENT`, validate `topK` and
`maxExcerptChars`, then delegate to the pipeline. -/
def engineQuery (hasSnapshot : Bool) (deps : PipelineDeps)
    (cfg : RetrievalConfig) (params : EngineQueryParams)
    (tookMs : Nat) : Except MsrlErrorCode QueryResult :=
  if !hasSnapshot then
    .error .notIndexed
  else if params.query = "" || jsTrim params.query = "" then
    .error (.invalidArgument "query")
  else
    let topK := params.topK.getD cfg.defaultTopK
    let maxExcerptChars := params.maxExcerptChars.getD cfg.defaultMaxExcerptChars
    if topK < 1 || topK > cfg.maxTopK then
      .error (.invalidArgument "topK")
    else if maxExcerptChars < 200 || maxExcerptChars > cfg.maxMaxExcerptChars then
      .error (.invalidArgument "maxExcerptChars")
    else
      .ok (pipelineQuery deps
        { query := params.query, limit := topK, filter := params.filters } tookMs)

/-! ## FenceDetector (src fence-detector) -/

/-- A fenced code block region, `[startChar, endChar)`. -/
structure FencedRegion where
  startChar : Nat
  endChar : Nat
  language : Option String := none
deriving DecidableEq

/-- Result of `matchFenceOpen`. -/
structure FenceOpenMatch where
  char : Char
  length : Nat
  language : Option String
  isAtLineStart : Bool
deriving DecidableEq

/-- `FenceDetector.matchFenceOpen`: up to three leading spaces, then a run
of three or more backticks or tildes, with an optional language word. -/
def matchFenceOpen (line : List Char) : Option FenceOpenMatch :=
  let leadingWhitespace := (line.takeWhile (· = ' ')).take 3
  let afterWhitespace := line.drop leadingWhitespace.length
  let isAtLineStart : Bool :=
    line.isEmpty ||
      (leadingWhitespace ++ ['`']).isPrefixOf line ||
      (leadingWhitespace ++ ['~']).isPrefixOf line
  let backtickRun := afterWhitespace.takeWhile (· = '`')
  if 3 ≤ backtickRun.length then
    let lang := (afterWhitespace.drop backtickRun.length).takeWhile
      (fun c => !c.isWhitespace && c ≠ '`')
    some
      { char := '`', length := backtickRun.length
        language := if lang.isEmpty then none else some ⟨lang⟩
        isAtLineStart := isAtLineStart }
  else
    let tildeRun := afterWhitespace.takeWhile (· = '~')
    if 3 ≤ tildeRun.length then
      let lang := (afterWhitespace.drop tildeRun.length).takeWhile
        (fun c => !c.isWhitespace && c ≠ '~')
      some
        { char := '~', length := tildeRun.length
          language := if lang.isEmpty then none else some ⟨lang⟩
          isAtLineStart := isAtLineStart }
    else none

/-- `FenceDetector.matchFenceClose`: after stripping up to three leading
spaces, a run of the fence character at least `minLength` long followed
only by whitespace. -/
def matchFenceClose (line : List Char) (fenceChar : Char) (minLength : Nat) : Bool :=
  let trimmed := line.drop ((line.takeWhile (· = ' ')).take 3).length
  let run := trimmed.takeWhile (· = fenceChar)
  minLength ≤ run.length && (trimmed.drop run.length).all Char.isWhitespace

/-- The in-fence state of the detector: fence start offset, fence
character, fence run length, language. -/
structure FenceState where
  fenceStart : Nat
  fenceChar : Char
  fenceLength : Nat
  fenceLanguage : Option String
deriving DecidableEq

/-- The line loop of `FenceDetector.detect`.  `textLen` closes an unclosed
fence at end of document; the offset advances by the line length plus one
for the newline, except after the last line. -/
def detectGo (textLen : Nat) : List (List Char) → Nat → Option FenceState →
    List FencedRegion
  | [], _, none => []
  | [], _, some st =>
    [{ startChar := st.fenceStart, endChar := textLen, language := st.fenceLanguage }]
  | line :: rest, offset, none =>
    let nextOffset := offset + line.length + (if rest.isEmpty then 0 else 1)
    match matchFenceOpen line with
    | some m =>
      if m.isAtLineStart then
        detectGo textLen rest nextOffset
          (some { fenceStart := offset, fenceChar := m.char
                  fenceLength := m.length, fenceLanguage := m.language })
      else detectGo textLen rest nextOffset none
    | none => detectGo textLen rest nextOffset none
  | line :: rest, offset, some st =>
    let nextOffset := offset + line.length + (if rest.isEmpty then 0 else 1)
    if matchFenceClose line st.fenceChar st.fenceLength then
      { startChar := st.fenceStart, endChar := offset + line.length
        language := st.fenceLanguage }
        :: detectGo textLen rest nextOffset none
    else detectGo textLen rest nextOffset (some st)

/-- `FenceDetector.detect` over a character list (`split('\n')` first). -/
def fenceDetect (text : List Char) : List FencedRegion :=
  detectGo text.length (text.splitOn '\n') 0 none

/-! ## Chunker (src chunker) -/

/-- A heading tree node. -/
inductive HeadingNode where
  | mk : (nodeId : String) → (level : Nat) → (title : String) →
      (headingPath : String) → (startChar : Nat) → (endChar : Nat) →
      (children : List HeadingNode) → HeadingNode

/-- The node id. -/
def HeadingNode.nodeId : HeadingNode → String
  | .mk i _ _ _ _ _ _ => i

/-- The heading level. -/
def HeadingNode.level : HeadingNode → Nat
  | .mk _ l _ _ _ _ _ => l

/-- The heading path. -/
def HeadingNode.headingPath : HeadingNode → String
  | .mk _ _ _ p _ _ _ => p

/-- The start offset of the heading line. -/
def HeadingNode.startChar : HeadingNode → Nat
  | .mk _ _ _ _ s _ _ => s

/-- The end offset of the node's range. -/
def HeadingNode.endChar : HeadingNode → Nat
  | .mk _ _ _ _ _ e _ => e

/-- The child nodes. -/
def HeadingNode.children : HeadingNode → List HeadingNode
  | .mk _ _ _ _ _ _ c => c

/-- A chunk (leaf). -/
structure Chunk where
  leafId : String
  docUri : String
  nodeId : String
  headingPath : String
  startChar : Nat
  endChar : Nat
  text : List Char
  textHash : String
  shardId : Nat
  tokenCount : Nat
deriving DecidableEq

/-- A paragraph atom produced by `splitIntoParagraphs`, with its offset
into the node text. -/
structure Paragraph where
  text : List Char
  startOffset : Nat
deriving DecidableEq, Inhabited

/-- The chunker configuration (token units). -/
structure ChunkerConfig where
  targetMinTokens : Nat
  targetMaxTokens : Nat
  hardMaxTokens : Nat
  minPreferredTokens : Nat
  overlapTokens : Nat
deriving DecidableEq

/-- `DEFAULT_CHUNKER_CONFIG`. -/
def DEFAULT_CHUNKER_CONFIG : ChunkerConfig :=
  { targetMinTokens := 600, targetMaxTokens := 1000, hardMaxTokens := 1200
    minPreferredTokens := 200, overlapTokens := 100 }

/-- The `Chunker` with its constructor-injected dependencies: the fence
detector's `detect`, the token counter, and the two SHA-256 derived id/hash
functions (external crypto, modelled as parameters). -/
structure Chunker where
  config : ChunkerConfig
  detect : List Char → List FencedRegion
  tokenCounter : List Char → Nat
  leafIdOf : String → Nat → Nat → String
  textHashOf : List Char → String

/-- JavaScript `indexOf(c, start)` on a character list. -/
def indexOfCharFrom (text : List Char) (c : Char) (start : Nat) : Option Nat :=
  ((text.drop start).findIdx? (· = c)).map (· + start)

/-- JavaScript `indexOf("\n\n", start)`: the first position at or after
`start` where two consecutive newlines begin. -/
def findDoubleNlIdx : List Char → Option Nat
  | c1 :: c2 :: rest =>
    if c1 = '\n' && c2 = '\n' then some 0
    else (findDoubleNlIdx (c2 :: rest)).map (· + 1)
  | _ => none

/-- `indexOf("\n\n", pos)` rebased at `pos`. -/
def indexOfDoubleNl (text : List Char) (pos : Nat) : Option Nat :=
  (findDoubleNlIdx (text.drop pos)).map (· + pos)

/-- The `while (pos < text.length && text[pos] === '\n') pos++` loop. -/
def skipNewlines (text : List Char) (pos : Nat) : Nat :=
  pos + ((text.drop pos).takeWhile (· = '\n')).length

/-- `Chunker.findContentStart`: the offset just past the heading line. -/
def findContentStart (node : HeadingNode) (text : List Char) : Nat :=
  match indexOfCharFrom text '\n' node.startChar with
  | none => node.endChar
  | some headingLineEnd => headingLineEnd + 1

/-- The `nextBreak` computation of `splitIntoParagraphs`: the next blank
line, moved up to the next fence start when that comes first. -/
def nextBreakAt (text : List Char) (fencedRegions : List FencedRegion)
    (pos : Nat) : Option Nat :=
  let nextBreak := indexOfDoubleNl text pos
  match fencedRegions.find? (fun r => pos < r.startChar), nextBreak with
  | some f, none => some f.startChar
  | some f, some nb => if f.startChar < nb then some f.startChar else some nb
  | none, nb => nb

/-- The `while (pos < text.length)` loop of `Chunker.splitIntoParagraphs`.
The fuel only bounds the iteration count; `splitIntoParagraphs` supplies
enough for every input the source terminates on. -/
def splitGo (text : List Char) (fencedRegions : List FencedRegion) :
    Nat → Nat → List Paragraph
  | 0, _ => []
  | fuel + 1, pos =>
    if pos < text.length then
      match fencedRegions.find? (fun r => r.startChar = pos) with
      | some fence =>
        { text := jsSlice text fence.startChar fence.endChar
          startOffset := fence.startChar }
          :: splitGo text fencedRegions fuel (skipNewlines text fence.endChar)
      | none =>
        match nextBreakAt text fencedRegions pos with
        | none =>
          let paraText := text.drop pos
          if 0 < (jsTrimList paraText).length then
            [{ text := paraText, startOffset := pos }]
          else []
        | some nextBreak =>
          let paraText := jsSlice text pos nextBreak
          let rest := splitGo text fencedRegions fuel (skipNewlines text nextBreak)
          if 0 < (jsTrimList paraText).length then
            { text := paraText, startOffset := pos } :: rest
          else rest
    else []

/-- `Chunker.splitIntoParagraphs`. -/
def splitIntoParagraphs (text : List Char)
    (fencedRegions : List FencedRegion) : List Paragraph :=
  splitGo text fencedRegions (text.length + 1) 0

/-- `Chunker.createChunk`: the span runs from the first paragraph's offset
to the end of the last, but the text is the paragraphs joined with a fixed
blank line. Only called on non-empty paragraph lists (the source indexes
`paragraphs[0]` unconditionally). -/
def createChunk (C : Chunker) (paragraphs : List Paragraph) (docUri : String)
    (node : HeadingNode) (contentStart : Nat) (shardId : Nat) : Chunk :=
  let firstPara := paragraphs.headD default
  let lastPara := paragraphs.getLastD default
  let startChar := contentStart + firstPara.startOffset
  let endChar := contentStart + lastPara.startOffset + lastPara.text.length
  let text := joinSep ['\n', '\n'] (paragraphs.map Paragraph.text)
  { leafId := C.leafIdOf docUri startChar endChar
    docUri := docUri
    nodeId := node.nodeId
    headingPath := node.headingPath
    startChar := startChar
    endChar := endChar
    text := text
    textHash := C.textHashOf text
    shardId := shardId
    tokenCount := C.tokenCounter text }

/-- The accumulation loop of `Chunker.accumulateChunks`: flush the current
chunk when adding the next paragraph would exceed `targetMaxTokens`. -/
def accGo (C : Chunker) (docUri : String) (node : HeadingNode)
    (contentStart : Nat) (shardId : Nat) :
    List Paragraph → List Paragraph → Nat → List Chunk
  | [], currentParagraphs, _ =>
    if currentParagraphs.isEmpty then []
    else [createChunk C currentParagraphs docUri node contentStart shardId]
  | para :: rest, currentParagraphs, currentTokens =>
    let paraTokens := C.tokenCounter para.text
    if C.config.targetMaxTokens < currentTokens + paraTokens &&
        !currentParagraphs.isEmpty then
      createChunk C currentParagraphs docUri node contentStart shardId
        :: accGo C docUri node contentStart shardId rest [para] paraTokens
    else
      accGo C docUri node contentStart shardId rest
        (currentParagraphs ++ [para]) (currentTokens + paraTokens)

/-- `Chunker.accumulateChunks`. -/
def accumulateChunks (C : Chunker) (paragraphs : List Paragraph)
    (docUri : String) (node : HeadingNode) (contentStart : Nat)
    (shardId : Nat) : List Chunk :=
  if paragraphs.isEmpty then []
  else accGo C docUri node contentStart shardId paragraphs [] 0

/-- `Chunker.chunkNode`. -/
def chunkNode (C : Chunker) (docUri : String) (node : HeadingNode)
    (normalizedText : List Char) (shardId : Nat) : List Chunk :=
  let contentStart := findContentStart node normalizedText
  let contentEnd :=
    match node.children.head? with
    | some c => c.startChar
    | none => node.endChar
  if contentEnd ≤ contentStart then []
  else
    let nodeText := jsSlice normalizedText contentStart contentEnd
    if (jsTrimList nodeText).length = 0 then []
    else
      let fencedRegions := C.detect nodeText
      let paragraphs := splitIntoParagraphs nodeText fencedRegions
      accumulateChunks C paragraphs docUri node contentStart shardId

/-! ## SnapshotManager (src snapshot-manager)

The on-disk state is one directory per snapshot holding a `meta.json` with
`{id, state, createdAt}`.  It is modelled as an association list from
snapshot id to its metadata; every filesystem write of one `meta.json` is
one step of the model. -/

/-- A snapshot's lifecycle state. -/
inductive SnapState where
  | building
  | active
  | inactive
deriving DecidableEq

/-- The content of one snapshot's `meta.json`. -/
structure SnapMeta where
  state : SnapState
  createdAt : Nat
deriving DecidableEq

/-- The snapshot store: one entry per snapshot directory. -/
abbrev SnapStore : Type := List (String × SnapMeta)

/-- `SnapshotManager.getSnapshotInfo`: read one snapshot's meta. -/
def getSnapshotInfo (s : SnapStore) (id : String) : Option SnapMeta :=
  List.lookup id s

/-- The `listSnapshots` sort: creation time descending
(`sort((a, b) => b.createdAt - a.createdAt)`), stable. -/
def snapCreatedRel (a b : String × SnapMeta) : Prop :=
  b.2.createdAt ≤ a.2.createdAt

instance : DecidableRel snapCreatedRel := fun a b => by
  unfold snapCreatedRel; infer_instance

instance : IsTotal (String × SnapMeta) snapCreatedRel :=
  ⟨fun a b => Nat.le_total b.2.createdAt a.2.createdAt⟩

instance : IsTrans (String × SnapMeta) snapCreatedRel :=
  ⟨fun _ _ _ h h' => Nat.le_trans h' h⟩

/-- `SnapshotManager.listSnapshots`: all snapshots, newest first. -/
def listSnapshots (s : SnapStore) : List (String × SnapMeta) :=
  List.insertionSort snapCreatedRel s

/-- `SnapshotManager.getActiveSnapshot`. -/
def getActiveSnapshot (s : SnapStore) : Option (String × SnapMeta) :=
  (listSnapshots s).find? (fun e => e.2.state = SnapState.active)

/-- `SnapshotManager.updateState` (one `meta.json` write): rewrite the
state of the named snapshot, keeping its `createdAt`; no-op when absent. -/
def updateState (s : SnapStore) (id : String) (state : SnapState) : SnapStore :=
  s.map fun e =>
    if e.1 = id then (e.1, { e.2 with state := state }) else e

/-- The first half of `SnapshotManager.activateSnapshot`: deactivate the
currently active snapshot when it is a different one.  The store returned
here is the observable intermediate state between the two meta writes. -/
def activateDeactivatePrev (s : SnapStore) (id : String) : SnapStore :=
  match getActiveSnapshot s with
  | some current =>
    if current.1 ≠ id then updateState s current.1 SnapState.inactive else s
  | none => s

/-- `SnapshotManager.activateSnapshot`: error when the snapshot is unknown,
else deactivate the old active snapshot and mark the new one active — two
separate meta writes.  Returns the final store and an optional error. -/
def activateSnapshot (s : SnapStore) (id : String) : SnapStore × Option String :=
  match getSnapshotInfo s id with
  | none => (s, some "Snapshot not found")
  | some _ => (updateState (activateDeactivatePrev s id) id SnapState.active, none)

/-- `SnapshotManager.deleteSnapshot`: no-op when absent, error when the
snapshot is active, else remove its directory. -/
def deleteSnapshot (s : SnapStore) (id : String) : SnapStore × Option String :=
  match getSnapshotInfo s id with
  | none => (s, none)
  | some meta =>
    if meta.state = SnapState.active then
      (s, some "Cannot delete active snapshot")
    else
      (s.filter (fun e => e.1 ≠ id), none)

/-- The loop of `SnapshotManager.cleanupOldSnapshots`: skip the active
snapshot, keep the first `keepCount` others, delete the rest.  A delete
error aborts the loop with the deletions so far persisted. -/
def cleanupGo (keepCount : Nat) (activeId : Option String) :
    List (String × SnapMeta) → Nat → SnapStore → SnapStore × Option String
  | [], _, store => (store, none)
  | e :: rest, kept, store =>
    if some e.1 = activeId then
      cleanupGo keepCount activeId rest kept store
    else if kept < keepCount then
      cleanupGo keepCount activeId rest (kept + 1) store
    else
      match deleteSnapshot store e.1 with
      | (store', none) => cleanupGo keepCount activeId rest kept store'
      | (store', some msg) => (store', some msg)

/-- `SnapshotManager.cleanupOldSnapshots(keepCount)`. -/
def cleanupOldSnapshots (s : SnapStore) (keepCount : Nat) :
    SnapStore × Option String :=
  cleanupGo keepCount ((getActiveSnapshot s).map Prod.fst) (listSnapshots s) 0 s

/-! ## MetadataStore docs table (src metadata-store: `upsertDoc`)

`docs(doc_id AUTOINCREMENT, doc_uri UNIQUE, mtime, size, hash)` with
`INSERT ... ON CONFLICT(doc_uri) DO UPDATE SET mtime, size, hash`. -/

/-- A row of the `docs` table. -/
structure DocRow where
  docId : Nat
  docUri : String
  mtime : ℚ
  size : Int
  hash : String
deriving DecidableEq

/-- An input document record for `upsertDoc`. -/
structure DocInput where
  docUri : String
  mtime : ℚ
  size : Int
  hash : String
deriving DecidableEq

/-- The `docs` table: its rows and the AUTOINCREMENT counter. -/
structure DocsTable where
  rows : List DocRow
  nextId : Nat
deriving DecidableEq

/-- `MetadataStore.upsertDoc`: on a `doc_uri` conflict update `mtime`,
`size` and `hash` in place; otherwise insert a fresh row. -/
def upsertDoc (t : DocsTable) (d : DocInput) : DocsTable :=
  if t.rows.any (fun r => r.docUri = d.docUri) then
    { t with
        rows := t.rows.map fun r =>
          if r.docUri = d.docUri then
            { r with mtime := d.mtime, size := d.size, hash := d.hash }
          else r }
  else
    { rows := t.rows ++
        [{ docId := t.nextId, docUri := d.docUri, mtime := d.mtime
           size := d.size, hash := d.hash }]
      nextId := t.nextId + 1 }

/-! ## Claim C6: shard assignment -/

/-- C6, counterexample: for the one-character URI `"é"` the source's hash
(over the UTF-16 code unit `0xE9`) and the spec's hash (over the UTF-8
bytes `0xC3 0xA9`) assign different shards: 68 versus 65 of 128. -/
theorem C6_counterexample :
    getShardId "é" 128 = 68 ∧ specShardIdUtf8 "é" 128 = 65 ∧
    getShardId "é" 128 ≠ specShardIdUtf8 "é" 128 := by
  refine ⟨by decide, by decide, by decide⟩

/-- C6, amended: the assigned shard id is the 32-bit FNV-1a hash of the
URI's UTF-16 code units (`charCodeAt`) modulo the shard count — which
agrees with the spec's UTF-8-byte hash exactly on ASCII-only URIs. -/
theorem C6_shardId_ascii_agreement (docUri : String) (shardCount : Nat)
    (h : ∀ c ∈ docUri.data, c.toNat < 128) :
    getShardId docUri shardCount = specShardIdUtf8 docUri shardCount := by
  unfold getShardId specShardIdUtf8 utf16Units utf8Bytes
  congr 2
  apply List.flatMap_congr
  intro c hc
  have hlt := h c hc
  unfold utf16EncodeChar utf8EncodeChar
  rw [if_pos (by omega), if_pos hlt]

/-- C6, witness: the amended theorem applied to the ASCII URI
`"notes/test.md"` with 128 shards. -/
theorem C6_shardId_ascii_agreement_witness :
    getShardId "notes/test.md" 128 = specShardIdUtf8 "notes/test.md" 128 :=
  C6_shardId_ascii_agreement "notes/test.md" 128 (by decide)

/-! ## Claim C2: default hybrid weights -/

/-- C2, counterexample: `DEFAULT_HYBRID_WEIGHTS` is vector 0.7 / bm25 0.3,
not 0.75 / 0.25; fusing a lone vector candidate of score 1 with the
defaults yields 0.7, not 0.75. -/
theorem C2_counterexample :
    DEFAULT_HYBRID_WEIGHTS.vector = 7/10 ∧ DEFAULT_HYBRID_WEIGHTS.bm25 = 3/10 ∧
    (fuse DEFAULT_HYBRID_WEIGHTS [{ leafId := "l1", vectorScore := 1 }] []).map
        (fun r => r.score) = [7/10] ∧
    (7/10 : ℚ) ≠ 3/4 * 1 + 1/4 * 0 := by
  refine ⟨rfl, rfl, ?_, by norm_num⟩
  simp [fuse, fuseOne, keysFirst, lookupLast, DEFAULT_HYBRID_WEIGHTS,
    List.insertionSort, List.orderedInsert]

/-- C2, amended: with the default weights (the ones the retrieval pipeline
constructs its scorer with), every fused candidate's score is
`0.7 · vectorScore + 0.3 · bm25Score`. -/
theorem C2_fuse_default_score (vectorResults : List VectorResult)
    (bm25Results : List BM25Result) (r : HybridResult)
    (hr : r ∈ fuse DEFAULT_HYBRID_WEIGHTS vectorResults bm25Results) :
    r.score = 7/10 * r.vectorScore + 3/10 * r.bm25Score := by
  unfold fuse at hr
  rw [List.Perm.mem_iff (List.perm_insertionSort _ _)] at hr
  simp only [List.mem_map] at hr
  obtain ⟨id, -, rfl⟩ := hr
  rfl

/-- C2, witness: the amended theorem applied to the fused result of a lone
vector candidate. -/
theorem C2_fuse_default_score_witness :
    ({ leafId := "l1", score := 7/10, vectorScore := 1, bm25Score := 0 } :
        HybridResult).score =
      7/10 * ({ leafId := "l1", score := 7/10, vectorScore := 1,
                bm25Score := 0 } : HybridResult).vectorScore +
      3/10 * ({ leafId := "l1", score := 7/10, vectorScore := 1,
                bm25Score := 0 } : HybridResult).bm25Score := by
  have h : fuse DEFAULT_HYBRID_WEIGHTS [{ leafId := "l1", vectorScore := 1 }] [] =
      [{ leafId := "l1", score := 7/10, vectorScore := 1, bm25Score := 0 }] := by
    simp [fuse, fuseOne, keysFirst, lookupLast, DEFAULT_HYBRID_WEIGHTS,
      List.insertionSort, List.orderedInsert]
  exact C2_fuse_default_score [{ leafId := "l1", vectorScore := 1 }] [] _
    (h ▸ List.mem_singleton_self _)

/-! ## Claim C7: deterministic fusion order -/

/-- The first-occurrence deduplication `keysFirst` never repeats a key. -/
theorem keysFirst_nodup (ks : List String) : (keysFirst ks).Nodup := by
  suffices h : ∀ acc : List String, acc.Nodup →
      (ks.foldl (fun acc k => if k ∈ acc then acc else acc ++ [k]) acc).Nodup by
    exact h [] List.nodup_nil
  induction ks with
  | nil => intro acc hacc; simpa using hacc
  | cons k ks ih =>
    intro acc hacc
    simp only [List.foldl_cons]
    by_cases hk : k ∈ acc
    · rw [if_pos hk]; exact ih acc hacc
    · rw [if_neg hk]
      exact ih _ (by simpa [List.concat_eq_append] using hacc.concat hk)

/-- C7: `HybridScorer.fuse` returns a list sorted by the comparator
`fuseRel` — fused score descending, ties by `leafId` ascending — and each
`leafId` occurs at most once, so the output order is a function of the
inputs alone. -/
theorem C7_fuse_sorted (w : HybridWeights) (vectorResults : List VectorResult)
    (bm25Results : List BM25Result) :
    List.Sorted fuseRel (fuse w vectorResults bm25Results) ∧
    ((fuse w vectorResults bm25Results).map (fun r => r.leafId)).Nodup := by
  constructor
  · exact List.sorted_insertionSort fuseRel _
  · unfold fuse
    have hperm := (List.perm_insertionSort fuseRel
      ((keysFirst ((vectorResults.map fun r => (r.leafId, r.vectorScore)).map Prod.fst ++
        (bm25Results.map fun r => (r.leafId, r)).map Prod.fst)).map
          (fuseOne w (vectorResults.map fun r => (r.leafId, r.vectorScore))
            (bm25Results.map fun r => (r.leafId, r))))).map
        (fun r => r.leafId)
    rw [List.Perm.nodup_iff hperm]
    rw [List.map_map]
    have : ((fun r => r.leafId) ∘
        fuseOne w (vectorResults.map fun r => (r.leafId, r.vectorScore))
          (bm25Results.map fun r => (r.leafId, r))) = id := by
      funext id; rfl
    rw [this, List.map_id]
    exact keysFirst_nodup _

/-! ## Claim C3: empty query behaviour -/

/-- Inert pipeline dependencies, for closed evaluations. -/
def trivialDeps : PipelineDeps :=
  { vectorSearch := fun _ _ => []
    bm25Search := fun _ _ => []
    getLeafMetadata := fun _ => none
    extractExcerpt := fun _ _ _ => { excerpt := "", truncated := false } }

/-- C3, counterexample: `MsrlEngine.query` on a whitespace-only query with
a snapshot loaded raises `INVALID_ARGUMENT`, it does not return an empty
result set. -/
theorem C3_counterexample :
    engineQuery true trivialDeps {} { query := "   " } 0 =
      Except.error (MsrlErrorCode.invalidArgument "query") := by
  rfl

/-- C3, amended: `RetrievalPipeline.query` on an empty or whitespace-only
query returns no results with the elapsed time (a natural number, hence
nonnegative) and no error, while `MsrlEngine.query` rejects such a query
with `INVALID_ARGUMENT` before reaching the pipeline. -/
theorem C3_pipeline_empty_query (deps : PipelineDeps) (params : QueryParams)
    (tookMs : Nat) (h : jsTrim params.query = "") :
    pipelineQuery deps params tookMs =
      { results := [], meta := { tookMs := tookMs } } := by
  unfold pipelineQuery
  rw [if_pos h]

/-- C3, witness: the amended theorem applied to a three-space query. -/
theorem C3_pipeline_empty_query_witness :
    pipelineQuery trivialDeps { query := "   ", limit := 8 } 5 =
      { results := [], meta := { tookMs := 5 } } :=
  C3_pipeline_empty_query trivialDeps { query := "   ", limit := 8 } 5 (by decide)

/-! ## Claim C8: filter semantics -/

/-- The model of JavaScript `includes` agrees with the substring
relation. -/
theorem listIncludes_infix_iff (needle hay : List Char) :
    listIncludes needle hay = true ↔ needle <:+: hay := by
  induction hay with
  | nil =>
    simp [listIncludes, List.isEmpty_iff]
  | cons c rest ih =>
    simp only [listIncludes, Bool.or_eq_true, List.isPrefixOf_iff_prefix, ih,
      List.infix_cons_iff]

/-- `jsStartsWith` agrees with the prefix relation. -/
theorem jsStartsWith_prefix_iff (s p : String) :
    jsStartsWith s p = true ↔ p.data <+: s.data := by
  simp [jsStartsWith, List.isPrefixOf_iff_prefix]

/-- The claim's filter predicate, stated from the spec's words: keep a
candidate exactly when every provided filter is satisfied — `docUriPrefix`
a prefix of `docUri`, `docUris` exact-match inclusion with the empty list
imposing no restriction, `headingPathPrefix` a prefix of `headingPath`,
and `headingPathContains` a case-insensitive substring of `headingPath`. -/
def specFilterSat (metadata : LeafMetadata) (filter : Option QueryFilter) : Prop :=
  match filter with
  | none => True
  | some f =>
    (∀ p, f.docUriPrefix = some p → p.data <+: metadata.docUri.data) ∧
    (∀ us, f.docUris = some us → us ≠ [] → metadata.docUri ∈ us) ∧
    (∀ p, f.headingPathPrefix = some p → p.data <+: metadata.headingPath.data) ∧
    (∀ c, f.headingPathContains = some c →
      (jsToLower c).data <:+: (jsToLower metadata.headingPath).data)

/-- C8: the pipeline's `matchesFilters` keeps a candidate if and only if
the candidate satisfies every provided filter in the spec's sense (AND
semantics; prefix, inclusion, and case-insensitive substring matching). -/
theorem C8_matchesFilters_iff (metadata : LeafMetadata)
    (filter : Option QueryFilter) :
    matchesFilters metadata filter = true ↔ specFilterSat metadata filter := by
  cases filter with
  | none => simp [matchesFilters, specFilterSat]
  | some f =>
    obtain ⟨p1, us, p3, c4⟩ := f
    simp only [matchesFilters, specFilterSat, Bool.and_eq_true]
    constructor
    · rintro ⟨⟨⟨h1, h2⟩, h3⟩, h4⟩
      refine ⟨?_, ?_, ?_, ?_⟩
      · rintro p rfl
        rcases Bool.or_eq_true _ _ |>.mp h1 with h | h
        · have : p = "" := by simpa using h
          subst this
          exact List.nil_prefix
        · exact (jsStartsWith_prefix_iff _ _).mp h
      · rintro u rfl hne
        rcases Bool.or_eq_true _ _ |>.mp h2 with h | h
        · exact absurd (List.length_eq_zero.mp (by simpa using h)) hne
        · simpa using h
      · rintro p rfl
        rcases Bool.or_eq_true _ _ |>.mp h3 with h | h
        · have : p = "" := by simpa using h
          subst this
          exact List.nil_prefix
        · exact (jsStartsWith_prefix_iff _ _).mp h
      · rintro c rfl
        rcases Bool.or_eq_true _ _ |>.mp h4 with h | h
        · have : c = "" := by simpa using h
          subst this
          exact List.nil_infix
        · exact (listIncludes_infix_iff _ _).mp h
    · rintro ⟨h1, h2, h3, h4⟩
      refine ⟨⟨⟨?_, ?_⟩, ?_⟩, ?_⟩
      · cases p1 with
        | none => rfl
        | some p =>
          exact Bool.or_eq_true _ _ |>.mpr
            (Or.inr ((jsStartsWith_prefix_iff _ _).mpr (h1 p rfl)))
      · cases us with
        | none => rfl
        | some u =>
          rcases Decidable.eq_or_ne u [] with rfl | hne
          · simp
          · exact Bool.or_eq_true _ _ |>.mpr (Or.inr (by simpa using h2 u rfl hne))
      · cases p3 with
        | none => rfl
        | some p =>
          exact Bool.or_eq_true _ _ |>.mpr
            (Or.inr ((jsStartsWith_prefix_iff _ _).mpr (h3 p rfl)))
      · cases c4 with
        | none => rfl
        | some c =>
          exact Bool.or_eq_true _ _ |>.mpr
            (Or.inr ((listIncludes_infix_iff _ _).mpr (h4 c rfl)))

/-! ## Claim C9: upsertDoc idempotence -/

/-- C9: on a table whose `doc_uri`s are unique (the schema's UNIQUE
constraint), upserting the same record twice is the same as upserting it
once, leaves exactly one row for its `docUri`, and that row carries the
second call's `mtime`, `size` and `hash`. -/
theorem C9_upsertDoc_idempotent (t : DocsTable) (d : DocInput)
    (hnodup : (t.rows.map DocRow.docUri).Nodup) :
    upsertDoc (upsertDoc t d) d = upsertDoc t d ∧
    ((upsertDoc (upsertDoc t d) d).rows.filter
        (fun r => r.docUri = d.docUri)).length = 1 ∧
    ∀ r ∈ (upsertDoc (upsertDoc t d) d).rows, r.docUri = d.docUri →
      r.mtime = d.mtime ∧ r.size = d.size ∧ r.hash = d.hash := by
  set f : DocRow → DocRow := fun r =>
    if r.docUri = d.docUri then
      { r with mtime := d.mtime, size := d.size, hash := d.hash }
    else r with hf
  have hf_uri : ∀ r, (f r).docUri = r.docUri := by
    intro r
    by_cases hr : r.docUri = d.docUri <;> simp [hf, hr]
  have hff : ∀ r, f (f r) = f r := by
    intro r
    by_cases hr : r.docUri = d.docUri <;> simp [hf, hr]
  by_cases h : t.rows.any (fun r => r.docUri = d.docUri)
  · have hstep : upsertDoc t d = { t with rows := t.rows.map f } := by
      unfold upsertDoc
      rw [if_pos h]
    have hany2 : (t.rows.map f).any (fun r => r.docUri = d.docUri) = true := by
      rw [List.any_map]
      have hcomp : ((fun r : DocRow => decide (r.docUri = d.docUri)) ∘ f) =
          (fun r : DocRow => decide (r.docUri = d.docUri)) := by
        funext r
        simp [Function.comp, hf_uri r]
      rw [hcomp]
      exact h
    have hstep2 : upsertDoc (upsertDoc t d) d = { t with rows := t.rows.map f } := by
      rw [hstep]
      unfold upsertDoc
      rw [if_pos hany2, List.map_map]
      have : t.rows.map (f ∘ f) = t.rows.map f :=
        List.map_congr_left fun r _ => hff r
      rw [this]
    refine ⟨hstep2.trans hstep.symm, ?_, ?_⟩
    · rw [hstep2]
      have hcount : ((t.rows.map f).filter (fun r => r.docUri = d.docUri)).length =
          t.rows.countP (fun r => r.docUri = d.docUri) := by
        rw [← List.countP_eq_length_filter, List.countP_map]
        refine List.countP_congr ?_
        intro r _
        simp [Function.comp, hf_uri r]
      rw [hcount]
      have h1 : (t.rows.map DocRow.docUri).count d.docUri ≤ 1 :=
        List.nodup_iff_count_le_one.mp hnodup d.docUri
      have h2 : (t.rows.map DocRow.docUri).count d.docUri =
          t.rows.countP (fun r => r.docUri = d.docUri) := by
        show (t.rows.map DocRow.docUri).countP (fun x => x == d.docUri) = _
        rw [List.countP_map]
        refine List.countP_congr ?_
        intro r _
        simp [Function.comp]
      have hge : 0 < t.rows.countP (fun r => r.docUri = d.docUri) := by
        rw [List.countP_pos_iff]
        rcases List.any_eq_true.mp h with ⟨r, hr, hp⟩
        exact ⟨r, hr, hp⟩
      omega
    · rw [hstep2]
      intro r hr hru
      simp only [List.mem_map] at hr
      obtain ⟨r₀, hr₀, rfl⟩ := hr
      by_cases h0 : r₀.docUri = d.docUri
      · simp [hf, h0]
      · rw [hf_uri r₀] at hru
        exact absurd hru h0
  · have hnone : ∀ r ∈ t.rows, ¬ (r.docUri = d.docUri) := by
      intro r hr
      have hfalse : t.rows.any (fun r => decide (r.docUri = d.docUri)) = false :=
        Bool.eq_false_iff.mpr h
      have := List.any_eq_false.mp hfalse r hr
      simpa using this
    set newRow : DocRow :=
      { docId := t.nextId, docUri := d.docUri, mtime := d.mtime
        size := d.size, hash := d.hash } with hnewRow
    have hstep : upsertDoc t d =
        { rows := t.rows ++ [newRow], nextId := t.nextId + 1 } := by
      unfold upsertDoc
      rw [if_neg (by simpa using h)]
    have hany2 : (t.rows ++ [newRow]).any (fun r => r.docUri = d.docUri) = true := by
      rw [List.any_append]
      simp [hnewRow]
    have hmap : (t.rows ++ [newRow]).map f = t.rows ++ [newRow] := by
      rw [List.map_append]
      congr 1
      · have : t.rows.map f = t.rows.map id :=
          List.map_congr_left fun r hr => by simp [hf, hnone r hr]
        rw [this, List.map_id]
      · simp [hf, hnewRow]
    have hstep2 : upsertDoc (upsertDoc t d) d = upsertDoc t d := by
      rw [hstep]
      unfold upsertDoc
      rw [if_pos hany2, hmap]
    refine ⟨hstep2, ?_, ?_⟩
    · rw [hstep2, hstep]
      simp only [List.filter_append]
      have hnil : t.rows.filter (fun r => r.docUri = d.docUri) = [] :=
        List.filter_eq_nil_iff.mpr fun r hr => by simpa using hnone r hr
      simp [hnil, hnewRow]
    · rw [hstep2, hstep]
      intro r hr hru
      rcases List.mem_append.mp hr with hl | hr1
      · exact absurd hru (hnone r hl)
      · rcases List.mem_singleton.mp hr1 with rfl
        exact ⟨rfl, rfl, rfl⟩

/-- C9, witness: the theorem applied to an initially empty table. -/
theorem C9_upsertDoc_idempotent_witness :
    upsertDoc (upsertDoc ⟨[], 0⟩ ⟨"a.md", 1, 2, "h"⟩) ⟨"a.md", 1, 2, "h"⟩ =
      upsertDoc ⟨[], 0⟩ ⟨"a.md", 1, 2, "h"⟩ ∧
    ((upsertDoc (upsertDoc ⟨[], 0⟩ ⟨"a.md", 1, 2, "h"⟩)
        ⟨"a.md", 1, 2, "h"⟩).rows.filter
          (fun r => r.docUri = ("a.md" : String))).length = 1 ∧
    ∀ r ∈ (upsertDoc (upsertDoc ⟨[], 0⟩ ⟨"a.md", 1, 2, "h"⟩)
        ⟨"a.md", 1, 2, "h"⟩).rows, r.docUri = "a.md" →
      r.mtime = 1 ∧ r.size = 2 ∧ r.hash = "h" :=
  C9_upsertDoc_idempotent ⟨[], 0⟩ ⟨"a.md", 1, 2, "h"⟩ (by simp)


/-! ## Claim C10: cleanup never deletes the active snapshot -/

/-- On a store with unique snapshot ids, `lookup` finds exactly the stored
meta of a present entry. -/
theorem lookup_eq_of_nodup (s : SnapStore) (k : String) (v : SnapMeta)
    (hnodup : (s.map Prod.fst).Nodup) (hmem : (k, v) ∈ s) :
    List.lookup k s = some v := by
  induction s with
  | nil => cases hmem
  | cons e rest ih =>
    rcases List.mem_cons.mp hmem with heq | hmem'
    · rw [← heq]
      simp [List.lookup]
    · have hk : k ≠ e.1 := by
        intro h
        have hmap : k ∈ rest.map Prod.fst := List.mem_map.mpr ⟨(k, v), hmem', rfl⟩
        rw [h] at hmap
        exact (List.nodup_cons.mp hnodup).1 hmap
      have hbeq : (k == e.1) = false := beq_eq_false_iff_ne.mpr hk
      simp only [List.lookup, hbeq]
      exact ih (List.nodup_cons.mp hnodup).2 hmem'

theorem cleanupGo_preserves_active (keepCount : Nat) (activeId : Option String)
    (x : String × SnapMeta) (hx : x.2.state = SnapState.active) :
    ∀ (entries : List (String × SnapMeta)) (kept : Nat) (store : SnapStore),
      (store.map Prod.fst).Nodup → x ∈ store →
      x ∈ (cleanupGo keepCount activeId entries kept store).1 := by
  intro entries
  induction entries with
  | nil => intro kept store _ hmem; simpa [cleanupGo] using hmem
  | cons e rest ih =>
    intro kept store hnodup hmem
    unfold cleanupGo
    by_cases h1 : some e.1 = activeId
    · rw [if_pos h1]
      exact ih kept store hnodup hmem
    · rw [if_neg h1]
      by_cases h2 : kept < keepCount
      · rw [if_pos h2]
        exact ih (kept + 1) store hnodup hmem
      · rw [if_neg h2]
        unfold deleteSnapshot
        cases hlook : getSnapshotInfo store e.1 with
        | none =>
          exact ih kept store hnodup hmem
        | some meta =>
          dsimp only
          by_cases h3 : meta.state = SnapState.active
          · rw [if_pos h3]
            exact hmem
          · rw [if_neg h3]
            refine ih kept _ ?_ ?_
            · exact List.Nodup.sublist
                (List.Sublist.map Prod.fst (List.filter_sublist store)) hnodup
            · rw [List.mem_filter]
              refine ⟨hmem, ?_⟩
              have hne : x.1 ≠ e.1 := by
                intro h
                have hl : List.lookup e.1 store = some x.2 := by
                  rw [← h]
                  exact lookup_eq_of_nodup store x.1 x.2 hnodup (by
                    have hxx : (x.1, x.2) = x := rfl
                    rw [hxx]; exact hmem)
                unfold getSnapshotInfo at hlook
                have hmx : meta = x.2 := Option.some.inj (hlook.symm.trans hl)
                rw [hmx] at h3
                exact h3 hx
              simpa using hne

/-- C10: on any store with unique snapshot ids, `cleanupOldSnapshots` keeps
every snapshot whose state is active, for every `keepCount`; and
`deleteSnapshot` refuses (with an error, deleting nothing) whenever the
addressed snapshot's state is active. -/
theorem C10_cleanup_spares_active (s : SnapStore) (keepCount : Nat)
    (hnodup : (s.map Prod.fst).Nodup) :
    (∀ x ∈ s, x.2.state = SnapState.active →
      x ∈ (cleanupOldSnapshots s keepCount).1) ∧
    (∀ id meta, getSnapshotInfo s id = some meta →
      meta.state = SnapState.active →
      deleteSnapshot s id = (s, some "Cannot delete active snapshot")) := by
  constructor
  · intro x hmem hx
    unfold cleanupOldSnapshots
    exact cleanupGo_preserves_active keepCount _ x hx _ 0 s hnodup hmem
  · intro id meta hlook hactive
    unfold deleteSnapshot
    rw [hlook]
    dsimp only
    rw [if_pos hactive]

/-- C10, witness: the theorem applied to a two-snapshot store with
`keepCount` zero. -/
theorem C10_cleanup_spares_active_witness :
    (∀ x ∈ ([("a", ⟨SnapState.active, 5⟩), ("b", ⟨SnapState.inactive, 3⟩)] :
        SnapStore), x.2.state = SnapState.active →
      x ∈ (cleanupOldSnapshots
        [("a", ⟨SnapState.active, 5⟩), ("b", ⟨SnapState.inactive, 3⟩)] 0).1) ∧
    (∀ id meta, getSnapshotInfo
        [("a", ⟨SnapState.active, 5⟩), ("b", ⟨SnapState.inactive, 3⟩)] id =
          some meta →
      meta.state = SnapState.active →
      deleteSnapshot
        [("a", ⟨SnapState.active, 5⟩), ("b", ⟨SnapState.inactive, 3⟩)] id =
        ([("a", ⟨SnapState.active, 5⟩), ("b", ⟨SnapState.inactive, 3⟩)],
          some "Cannot delete active snapshot")) :=
  C10_cleanup_spares_active
    [("a", ⟨SnapState.active, 5⟩), ("b", ⟨SnapState.inactive, 3⟩)] 0 (by decide)


/-! ## Claim C5: snapshot activation -/

/-- C5, counterexample: with snapshot `a` active and `b` freshly built,
the state between `activateSnapshot`'s two meta writes (the store
`activateDeactivatePrev` returns, which `activateSnapshot` then feeds to
its second write) designates no active snapshot at all — neither the old
`a` nor the new `b`. -/
theorem C5_counterexample :
    getActiveSnapshot [("a", ⟨SnapState.active, 5⟩), ("b", ⟨SnapState.building, 6⟩)] =
      some ("a", ⟨SnapState.active, 5⟩) ∧
    getActiveSnapshot (activateDeactivatePrev
      [("a", ⟨SnapState.active, 5⟩), ("b", ⟨SnapState.building, 6⟩)] "b") = none ∧
    (activateSnapshot
      [("a", ⟨SnapState.active, 5⟩), ("b", ⟨SnapState.building, 6⟩)] "b").1 =
      [("a", ⟨SnapState.inactive, 5⟩), ("b", ⟨SnapState.active, 6⟩)] := by
  decide

theorem find?_eq_some_of_unique {α : Type} (l : List α) (p : α → Bool) (x : α)
    (hmem : x ∈ l) (hx : p x = true) (huniq : ∀ y ∈ l, p y = true → y = x) :
    l.find? p = some x := by
  induction l with
  | nil => cases hmem
  | cons a rest ih =>
    by_cases ha : p a = true
    · rw [List.find?_cons_of_pos _ ha]
      rw [huniq a (List.mem_cons_self a rest) ha]
    · rw [List.find?_cons_of_neg _ ha]
      have hxrest : x ∈ rest := by
        rcases List.mem_cons.mp hmem with rfl | h
        · exact absurd hx ha
        · exact h
      exact ih hxrest fun y hy hp => huniq y (List.mem_cons_of_mem a hy) hp

theorem pair_eq_of_nodup (l : SnapStore) (k : String) (a b : SnapMeta)
    (hnodup : (l.map Prod.fst).Nodup) (ha : (k, a) ∈ l) (hb : (k, b) ∈ l) :
    a = b := by
  have h1 := lookup_eq_of_nodup l k a hnodup ha
  have h2 := lookup_eq_of_nodup l k b hnodup hb
  exact Option.some.inj (h1.symm.trans h2)

theorem mem_of_lookup_eq_some (s : SnapStore) (k : String) (v : SnapMeta)
    (h : List.lookup k s = some v) : (k, v) ∈ s := by
  induction s with
  | nil => cases h
  | cons e rest ih =>
    simp only [List.lookup] at h
    cases hbeq : (k == e.1) with
    | true =>
      rw [hbeq] at h
      have hk : k = e.1 := by simpa using hbeq
      have hv : e.2 = v := Option.some.inj h
      exact List.mem_cons.mpr (Or.inl (Prod.ext hk hv.symm))
    | false =>
      rw [hbeq] at h
      exact List.mem_cons_of_mem e (ih h)

theorem getActiveSnapshot_some (s : SnapStore) (cur : String × SnapMeta)
    (h : getActiveSnapshot s = some cur) :
    cur ∈ s ∧ cur.2.state = SnapState.active := by
  unfold getActiveSnapshot at h
  have hmem := List.mem_of_find?_eq_some h
  have hp := List.find?_some h
  refine ⟨?_, by simpa using hp⟩
  exact (List.Perm.mem_iff (List.perm_insertionSort snapCreatedRel s)).mp hmem

theorem getActiveSnapshot_none (s : SnapStore)
    (h : getActiveSnapshot s = none) :
    ∀ y ∈ s, y.2.state ≠ SnapState.active := by
  unfold getActiveSnapshot at h
  intro y hy
  have hy' : y ∈ listSnapshots s :=
    (List.Perm.mem_iff (List.perm_insertionSort snapCreatedRel s)).mpr hy
  have := List.find?_eq_none.mp h y hy'
  simpa using this

theorem updateState_map_fst (s : SnapStore) (id : String) (st : SnapState) :
    (updateState s id st).map Prod.fst = s.map Prod.fst := by
  unfold updateState
  rw [List.map_map]
  refine List.map_congr_left ?_
  intro e _
  by_cases h : e.1 = id <;> simp [h]

theorem mid_no_active_except (s : SnapStore) (id : String)
    (huniq : ∀ e ∈ s, ∀ e' ∈ s, e.2.state = SnapState.active →
      e'.2.state = SnapState.active → e = e') :
    ∀ e ∈ activateDeactivatePrev s id, e.1 ≠ id →
      e.2.state ≠ SnapState.active := by
  intro e hmem hne
  unfold activateDeactivatePrev at hmem
  cases hga : getActiveSnapshot s with
  | none =>
    rw [hga] at hmem
    exact getActiveSnapshot_none s hga e hmem
  | some cur =>
    rw [hga] at hmem
    dsimp only at hmem
    obtain ⟨hcur_mem, hcur_act⟩ := getActiveSnapshot_some s cur hga
    by_cases hc : cur.1 ≠ id
    · rw [if_pos hc] at hmem
      unfold updateState at hmem
      obtain ⟨e₀, he₀, heq⟩ := List.mem_map.mp hmem
      by_cases h0 : e₀.1 = cur.1
      · rw [if_pos h0] at heq
        rw [← heq]
        intro hcontra
        cases hcontra
      · rw [if_neg h0] at heq
        rw [← heq]
        intro hact
        have := huniq e₀ he₀ cur hcur_mem hact hcur_act
        exact h0 (by rw [this])
    · rw [if_neg hc] at hmem
      push_neg at hc
      intro hact
      have := huniq e hmem cur hcur_mem hact hcur_act
      rw [this] at hne
      exact hne hc

theorem mid_keeps_target (s : SnapStore) (id : String) (m : SnapMeta)
    (hmem : (id, m) ∈ s) : (id, m) ∈ activateDeactivatePrev s id := by
  unfold activateDeactivatePrev
  cases hga : getActiveSnapshot s with
  | none => exact hmem
  | some cur =>
    dsimp only
    by_cases hc : cur.1 ≠ id
    · rw [if_pos hc]
      unfold updateState
      refine List.mem_map.mpr ⟨(id, m), hmem, ?_⟩
      rw [if_neg (by simpa using fun h => hc (by rw [h]))]
    · rw [if_neg hc]
      exact hmem

theorem mid_map_fst (s : SnapStore) (id : String) :
    (activateDeactivatePrev s id).map Prod.fst = s.map Prod.fst := by
  unfold activateDeactivatePrev
  cases getActiveSnapshot s with
  | none => rfl
  | some cur =>
    dsimp only
    by_cases hc : cur.1 ≠ id
    · rw [if_pos hc, updateState_map_fst]
    · rw [if_neg hc]

/-- C5, amended: at operation granularity activation is exact — on a
well-formed store (unique ids, at most one active snapshot) activating an
existing snapshot succeeds, afterwards a snapshot is active exactly when it
is the newly activated one, and the published designation names it; but
the counterexample shows the intermediate state between the two internal
meta writes can designate no snapshot at all. -/
theorem C5_activate_bigstep (s : SnapStore) (id : String) (m : SnapMeta)
    (hnodup : (s.map Prod.fst).Nodup)
    (huniq : ∀ e ∈ s, ∀ e' ∈ s, e.2.state = SnapState.active →
      e'.2.state = SnapState.active → e = e')
    (hlook : getSnapshotInfo s id = some m) :
    (activateSnapshot s id).2 = none ∧
    (∀ e ∈ (activateSnapshot s id).1,
      (e.2.state = SnapState.active ↔ e.1 = id)) ∧
    getActiveSnapshot (activateSnapshot s id).1 =
      some (id, ⟨SnapState.active, m.createdAt⟩) := by
  have hmem_s : (id, m) ∈ s := by
    unfold getSnapshotInfo at hlook
    exact mem_of_lookup_eq_some s id m hlook
  have hstep : activateSnapshot s id =
      (updateState (activateDeactivatePrev s id) id SnapState.active, none) := by
    unfold activateSnapshot
    rw [hlook]
  rw [hstep]
  set mid := activateDeactivatePrev s id with hmid
  set s' := updateState mid id SnapState.active with hs'
  have hnodup_mid : (mid.map Prod.fst).Nodup := by
    rw [hmid, mid_map_fst]
    exact hnodup
  have hnodup_s' : (s'.map Prod.fst).Nodup := by
    rw [hs', updateState_map_fst]
    exact hnodup_mid
  have hx_mem : (id, (⟨SnapState.active, m.createdAt⟩ : SnapMeta)) ∈ s' := by
    rw [hs']
    unfold updateState
    refine List.mem_map.mpr ⟨(id, m), ?_, by simp⟩
    rw [hmid]
    exact mid_keeps_target s id m hmem_s
  have hiff : ∀ e ∈ s', (e.2.state = SnapState.active ↔ e.1 = id) := by
    intro e he
    rw [hs'] at he
    unfold updateState at he
    obtain ⟨e₀, he₀, heq⟩ := List.mem_map.mp he
    by_cases h0 : e₀.1 = id
    · rw [if_pos h0] at heq
      rw [← heq]
      simp [h0]
    · rw [if_neg h0] at heq
      rw [← heq]
      constructor
      · intro hact
        exact absurd hact (mid_no_active_except s id huniq e₀ (hmid ▸ he₀) h0)
      · intro h
        exact absurd h h0
  refine ⟨rfl, hiff, ?_⟩
  unfold getActiveSnapshot
  apply find?_eq_some_of_unique
  · exact (List.Perm.mem_iff (List.perm_insertionSort snapCreatedRel s')).mpr hx_mem
  · simp
  · intro y hy hp
    have hy' : y ∈ s' :=
      (List.Perm.mem_iff (List.perm_insertionSort snapCreatedRel s')).mp hy
    have hyact : y.2.state = SnapState.active := by simpa using hp
    have hyid : y.1 = id := (hiff y hy').mp hyact
    have hy'' : (id, y.2) ∈ s' := by
      rw [← hyid]
      exact hy'
    have hmeta : y.2 = ⟨SnapState.active, m.createdAt⟩ :=
      pair_eq_of_nodup s' id y.2 _ hnodup_s' hy'' hx_mem
    exact Prod.ext hyid hmeta

/-- C5, witness: the amended theorem applied to the two-snapshot store. -/
theorem C5_activate_bigstep_witness :
    (activateSnapshot
      [("a", ⟨SnapState.active, 5⟩), ("b", ⟨SnapState.building, 6⟩)] "b").2 = none ∧
    (∀ e ∈ (activateSnapshot
      [("a", ⟨SnapState.active, 5⟩), ("b", ⟨SnapState.building, 6⟩)] "b").1,
      (e.2.state = SnapState.active ↔ e.1 = "b")) ∧
    getActiveSnapshot (activateSnapshot
      [("a", ⟨SnapState.active, 5⟩), ("b", ⟨SnapState.building, 6⟩)] "b").1 =
      some ("b", ⟨SnapState.active, 6⟩) :=
  C5_activate_bigstep
    [("a", ⟨SnapState.active, 5⟩), ("b", ⟨SnapState.building, 6⟩)] "b"
    ⟨SnapState.building, 6⟩ (by decide) (by decide) (by decide)


/-! ## Claim C1: chunk span versus chunk text -/

/-- The approximate token counter (`⌈len/4⌉`) used to bootstrap the
chunker before the model tokenizer is ready. -/
def approxTokenCounter (t : List Char) : Nat := (t.length + 3) / 4

/-- A chunker with the source's default configuration, the real fence
detector and the approximate token counter; the two SHA-256 parameters are
inert (leaf ids and text hashes play no role in span/text claims). -/
def sampleChunker : Chunker :=
  { config := DEFAULT_CHUNKER_CONFIG
    detect := fenceDetect
    tokenCounter := approxTokenCounter
    leafIdOf := fun _ _ _ => ""
    textHashOf := fun _ => "" }

/-- C1, counterexample: in `"# T\nA\n\n\nB\n"` the two paragraphs are
separated by three newlines; `chunkNode` produces one chunk spanning
`[4, 10)` whose `text` joins the paragraphs with exactly one blank line
(`"A\n\nB\n"`, 5 characters), while the slice of the normalized text over
the same span is `"A\n\n\nB\n"` (6 characters) — `slice ≠ text`. -/
theorem C1_counterexample :
    ((chunkNode sampleChunker "t.md" (.mk "n" 1 "T" "T" 0 10 [])
        "# T\nA\n\n\nB\n".data 0).map
      (fun c => (c.startChar, c.endChar, c.text)) =
        [(4, 10, "A\n\nB\n".data)]) ∧
    jsSlice "# T\nA\n\n\nB\n".data 4 10 ≠ "A\n\nB\n".data := by
  refine ⟨by decide, by decide⟩

/-- Every paragraph returned by the split loop equals the slice of the
node text at its recorded offset (the per-paragraph half of the claim,
which does hold). -/
theorem jsSlice_append (t : List Char) (a b c : Nat) (hab : a ≤ b) (hbc : b ≤ c) :
    jsSlice t a c = jsSlice t a b ++ jsSlice t b c := by
  unfold jsSlice
  have h1 : c - a = (b - a) + (c - b) := by omega
  rw [h1, List.take_add]
  congr 1
  rw [List.drop_drop]
  congr 2
  omega

theorem chain_headD_le (q : Paragraph) (rest : List Paragraph)
    (h : (q :: rest).Chain'
      (fun p r => r.startOffset = p.startOffset + p.text.length + 2)) :
    q.startOffset ≤ ((q :: rest).getLastD default).startOffset +
      ((q :: rest).getLastD default).text.length := by
  induction rest generalizing q with
  | nil => simp
  | cons r rest ih =>
    have h1 := (List.chain'_cons.mp h).1
    have h2 := (List.chain'_cons.mp h).2
    have h3 := ih r h2
    simp only [List.getLastD_cons] at h3 ⊢
    omega

theorem C1_slice_eq_text_on_blank_line_gaps (C : Chunker) (docUri : String) (node : HeadingNode)
    (contentStart shardId : Nat) (text : List Char) (ps : List Paragraph)
    (hne : ps ≠ [])
    (hslice : ∀ p ∈ ps, jsSlice text (contentStart + p.startOffset)
        (contentStart + p.startOffset + p.text.length) = p.text)
    (hgaps : ps.Chain' (fun p q =>
        q.startOffset = p.startOffset + p.text.length + 2 ∧
        jsSlice text (contentStart + p.startOffset + p.text.length)
          (contentStart + q.startOffset) = ['\n', '\n'])) :
    jsSlice text (createChunk C ps docUri node contentStart shardId).startChar
      (createChunk C ps docUri node contentStart shardId).endChar =
      (createChunk C ps docUri node contentStart shardId).text := by
  induction ps with
  | nil => exact absurd rfl hne
  | cons p rest ih =>
    cases rest with
    | nil =>
      show jsSlice text (contentStart + p.startOffset)
        (contentStart + p.startOffset + p.text.length) =
          joinSep ['\n', '\n'] [p.text]
      simpa [joinSep] using hslice p (by simp)
    | cons q rest' =>
      have hgap_head := (List.chain'_cons.mp hgaps).1
      have hchain_tail := (List.chain'_cons.mp hgaps).2
      have hIH := ih (by simp) (fun r hr => hslice r (by simp [hr]))
        hchain_tail
      have hoff_chain : (q :: rest').Chain'
          (fun p r => r.startOffset = p.startOffset + p.text.length + 2) :=
        hchain_tail.imp (fun _ _ hr => hr.1)
      have hqle := chain_headD_le q rest' hoff_chain
      show jsSlice text (contentStart + p.startOffset)
          (contentStart + ((q :: rest').getLastD default).startOffset +
            ((q :: rest').getLastD default).text.length) =
        p.text ++ ['\n', '\n'] ++ joinSep ['\n', '\n'] ((q :: rest').map Paragraph.text)
      have hsplit1 : jsSlice text (contentStart + p.startOffset)
          (contentStart + ((q :: rest').getLastD default).startOffset +
            ((q :: rest').getLastD default).text.length) =
          jsSlice text (contentStart + p.startOffset)
            (contentStart + p.startOffset + p.text.length) ++
          jsSlice text (contentStart + p.startOffset + p.text.length)
            (contentStart + ((q :: rest').getLastD default).startOffset +
              ((q :: rest').getLastD default).text.length) := by
        apply jsSlice_append
        · omega
        · have := hgap_head.1
          omega
      have hsplit2 : jsSlice text (contentStart + p.startOffset + p.text.length)
            (contentStart + ((q :: rest').getLastD default).startOffset +
              ((q :: rest').getLastD default).text.length) =
          jsSlice text (contentStart + p.startOffset + p.text.length)
            (contentStart + q.startOffset) ++
          jsSlice text (contentStart + q.startOffset)
            (contentStart + ((q :: rest').getLastD default).startOffset +
              ((q :: rest').getLastD default).text.length) := by
        apply jsSlice_append
        · have := hgap_head.1
          omega
        · omega
      rw [hsplit1, hsplit2, hslice p (by simp), hgap_head.2]
      have hIH' : jsSlice text (contentStart + q.startOffset)
          (contentStart + ((q :: rest').getLastD default).startOffset +
            ((q :: rest').getLastD default).text.length) =
          joinSep ['\n', '\n'] ((q :: rest').map Paragraph.text) := hIH
      rw [hIH', List.append_assoc]

/-- C1, witness: the amended theorem applied to `"A\n\nB"` split into its
two paragraphs, whose gap is exactly one blank line. -/
theorem C1_slice_eq_text_witness :
    jsSlice "A\n\nB".data
      (createChunk sampleChunker [⟨"A".data, 0⟩, ⟨"B".data, 3⟩] "t.md"
        (.mk "n" 1 "T" "T" 0 5 []) 0 0).startChar
      (createChunk sampleChunker [⟨"A".data, 0⟩, ⟨"B".data, 3⟩] "t.md"
        (.mk "n" 1 "T" "T" 0 5 []) 0 0).endChar =
      (createChunk sampleChunker [⟨"A".data, 0⟩, ⟨"B".data, 3⟩] "t.md"
        (.mk "n" 1 "T" "T" 0 5 []) 0 0).text :=
  C1_slice_eq_text_on_blank_line_gaps sampleChunker "t.md"
    (.mk "n" 1 "T" "T" 0 5 []) 0 0 "A\n\nB".data
    [⟨"A".data, 0⟩, ⟨"B".data, 3⟩] (by decide) (by decide)
    (List.chain'_cons.mpr ⟨⟨by decide, by decide⟩, List.chain'_singleton _⟩)


/-! ## Claim C4: overlap seeding -/

/-- C4, counterexample: with `targetMaxTokens` 1 the node content
`"AAAA\n\nBBBB\n"` splits into two chunks spanning `[4, 8)` and `[10, 15)`.
The second chunk starts after the first ends (8 ≤ 10): it is seeded with no
overlap region from the previous chunk at all — `accumulateChunks` has no
overlap logic and `overlapTokens` is never read. -/
theorem C4_counterexample :
    ((chunkNode
        { sampleChunker with
            config := { DEFAULT_CHUNKER_CONFIG with targetMaxTokens := 1 } }
        "t.md" (.mk "n" 1 "T" "T" 0 15 []) "# T\nAAAA\n\nBBBB\n".data 0).map
      (fun c => (c.startChar, c.endChar)) = [(4, 8), (10, 15)]) ∧
    (8 : Nat) ≤ 10 := by
  refine ⟨by decide, by decide⟩

theorem skipNewlines_ge (text : List Char) (pos : Nat) :
    pos ≤ skipNewlines text pos := by
  unfold skipNewlines
  omega

theorem jsSlice_length_le (t : List Char) (i j : Nat) :
    (jsSlice t i j).length ≤ j - i := by
  unfold jsSlice
  simp [List.length_take]

theorem nextBreakAt_ge (text : List Char) (regions : List FencedRegion)
    (pos nb : Nat) (h : nextBreakAt text regions pos = some nb) : pos ≤ nb := by
  unfold nextBreakAt at h
  have hdnl : ∀ k, indexOfDoubleNl text pos = some k → pos ≤ k := by
    intro k hk
    unfold indexOfDoubleNl at hk
    obtain ⟨k', -, rfl⟩ := Option.map_eq_some'.mp hk
    omega
  cases hf : regions.find? (fun r => pos < r.startChar) with
  | none =>
    rw [hf] at h
    exact hdnl nb h
  | some f =>
    have hflt : pos < f.startChar := by simpa using List.find?_some hf
    rw [hf] at h
    cases hd : indexOfDoubleNl text pos with
    | none =>
      rw [hd] at h
      dsimp only at h
      cases h
      omega
    | some k =>
      rw [hd] at h
      dsimp only at h
      by_cases hcmp : f.startChar < k
      · rw [if_pos hcmp] at h
        cases h
        omega
      · rw [if_neg hcmp] at h
        cases h
        exact hdnl nb hd

theorem splitGo_chain (text : List Char) (regions : List FencedRegion)
    (hwf : ∀ r ∈ regions, r.startChar ≤ r.endChar) :
    ∀ (fuel pos : Nat),
      (∀ p ∈ splitGo text regions fuel pos, pos ≤ p.startOffset) ∧
      List.Chain' (fun p q => p.startOffset + p.text.length ≤ q.startOffset)
        (splitGo text regions fuel pos) := by
  intro fuel
  induction fuel with
  | zero =>
    intro pos
    exact ⟨fun p hp => absurd hp (List.not_mem_nil p), List.chain'_nil⟩
  | succ fuel ih =>
    intro pos
    unfold splitGo
    by_cases hlt : pos < text.length
    · rw [if_pos hlt]
      cases hfind : regions.find? (fun r => r.startChar = pos) with
      | some fence =>
        have hfs : fence.startChar = pos := by simpa using List.find?_some hfind
        have hfmem := List.mem_of_find?_eq_some hfind
        have hfe : fence.startChar ≤ fence.endChar := hwf fence hfmem
        have hih := ih (skipNewlines text fence.endChar)
        have hend : fence.startChar +
            (jsSlice text fence.startChar fence.endChar).length ≤
            skipNewlines text fence.endChar := by
          have h1 := jsSlice_length_le text fence.startChar fence.endChar
          have h2 := skipNewlines_ge text fence.endChar
          omega
        constructor
        · intro p hp
          rcases List.mem_cons.mp hp with rfl | hrest
          · simp [hfs]
          · have := hih.1 p hrest
            have h2 := skipNewlines_ge text fence.endChar
            omega
        · refine List.chain'_cons'.mpr ⟨?_, hih.2⟩
          intro y hy
          have hymem : y ∈ splitGo text regions fuel (skipNewlines text fence.endChar) :=
            List.mem_of_mem_head? hy
          have := hih.1 y hymem
          simpa using le_trans hend this
      | none =>
        cases hnb : nextBreakAt text regions pos with
        | none =>
          dsimp only
          by_cases htrim : 0 < (jsTrimList (text.drop pos)).length
          · rw [if_pos htrim]
            exact ⟨fun p hp => by rcases List.mem_singleton.mp hp with rfl; simp,
              List.chain'_singleton _⟩
          · rw [if_neg htrim]
            exact ⟨fun p hp => absurd hp (List.not_mem_nil p), List.chain'_nil⟩
        | some nextBreak =>
          dsimp only
          have hposnb : pos ≤ nextBreak := nextBreakAt_ge text regions pos nextBreak hnb
          have hih := ih (skipNewlines text nextBreak)
          have hend : pos + (jsSlice text pos nextBreak).length ≤
              skipNewlines text nextBreak := by
            have h1 := jsSlice_length_le text pos nextBreak
            have h2 := skipNewlines_ge text nextBreak
            omega
          by_cases htrim : 0 < (jsTrimList (jsSlice text pos nextBreak)).length
          · rw [if_pos htrim]
            constructor
            · intro p hp
              rcases List.mem_cons.mp hp with rfl | hrest
              · simp
              · have := hih.1 p hrest
                have h2 := skipNewlines_ge text nextBreak
                omega
            · refine List.chain'_cons'.mpr ⟨?_, hih.2⟩
              intro y hy
              have hymem : y ∈ splitGo text regions fuel (skipNewlines text nextBreak) :=
                List.mem_of_mem_head? hy
              have := hih.1 y hymem
              simpa using le_trans hend this
          · rw [if_neg htrim]
            constructor
            · intro p hp
              have := hih.1 p hp
              have h2 := skipNewlines_ge text nextBreak
              omega
            · exact hih.2
    · rw [if_neg hlt]
      exact ⟨fun p hp => absurd hp (List.not_mem_nil p), List.chain'_nil⟩

theorem accGo_chain (C : Chunker) (docUri : String) (node : HeadingNode)
    (contentStart shardId : Nat) :
    ∀ (rest cur : List Paragraph) (tok : Nat), cur ≠ [] →
      List.Chain' (fun p q => p.startOffset + p.text.length ≤ q.startOffset)
        (cur ++ rest) →
      List.Chain' (fun c1 c2 => c1.endChar ≤ c2.startChar)
        (accGo C docUri node contentStart shardId rest cur tok) ∧
      ∀ c ∈ (accGo C docUri node contentStart shardId rest cur tok).head?,
        c.startChar = contentStart + (cur.headD default).startOffset := by
  intro rest
  induction rest with
  | nil =>
    intro cur tok hne hchain
    unfold accGo
    rw [if_neg (by simpa using hne)]
    refine ⟨List.chain'_singleton _, ?_⟩
    intro c hc
    rcases Option.mem_some_iff.mp hc with rfl
    rfl
  | cons para rest ih =>
    intro cur tok hne hchain
    unfold accGo
    by_cases hcond : (C.config.targetMaxTokens < tok + C.tokenCounter para.text &&
        !cur.isEmpty) = true
    · rw [if_pos hcond]
      have hchain_tail : List.Chain'
          (fun p q => p.startOffset + p.text.length ≤ q.startOffset)
          ([para] ++ rest) := by
        have := (List.chain'_append.mp hchain).2.1
        simpa using this
      have hih := ih [para] (C.tokenCounter para.text) (by simp) hchain_tail
      refine ⟨?_, ?_⟩
      · refine List.chain'_cons'.mpr ⟨?_, hih.1⟩
        intro c hc
        have hc' : c.startChar = contentStart + para.startOffset := by
          have := hih.2 c hc
          simpa using this
        rw [hc']
        show contentStart + (cur.getLastD default).startOffset +
          (cur.getLastD default).text.length ≤ contentStart + para.startOffset
        obtain ⟨c0, cur', rfl⟩ := List.exists_cons_of_ne_nil hne
        have hlast := (List.chain'_append.mp hchain).2.2
        have hlast' : (c0 :: cur').getLast? = some ((c0 :: cur').getLastD default) := by
          rw [List.getLastD_eq_getLast?]
          cases hq : (c0 :: cur').getLast? with
          | none => simp at hq
          | some x => rfl
        have := hlast ((c0 :: cur').getLastD default) (by rw [hlast']; rfl) para
          (by simp)
        omega
      · intro c hc
        rcases Option.mem_some_iff.mp hc with rfl
        rfl
    · rw [if_neg hcond]
      have hne' : cur ++ [para] ≠ [] := by simp
      have hchain' : List.Chain'
          (fun p q => p.startOffset + p.text.length ≤ q.startOffset)
          ((cur ++ [para]) ++ rest) := by
        rw [List.append_assoc, List.singleton_append]
        exact hchain
      have hih := ih (cur ++ [para]) (tok + C.tokenCounter para.text) hne' hchain'
      refine ⟨hih.1, ?_⟩
      intro c hc
      have := hih.2 c hc
      rw [this]
      obtain ⟨c0, cur', rfl⟩ := List.exists_cons_of_ne_nil hne
      rfl

theorem accumulateChunks_chain (C : Chunker) (docUri : String)
    (node : HeadingNode) (contentStart shardId : Nat)
    (paragraphs : List Paragraph)
    (hchain : List.Chain'
      (fun p q => p.startOffset + p.text.length ≤ q.startOffset) paragraphs) :
    List.Chain' (fun c1 c2 => c1.endChar ≤ c2.startChar)
      (accumulateChunks C paragraphs docUri node contentStart shardId) := by
  unfold accumulateChunks
  cases paragraphs with
  | nil =>
    rw [if_pos (by simp)]
    exact List.chain'_nil
  | cons p rest =>
    rw [if_neg (by simp)]
    have hstep : accGo C docUri node contentStart shardId (p :: rest) [] 0 =
        accGo C docUri node contentStart shardId rest [p]
          (0 + C.tokenCounter p.text) := by
      conv_lhs => rw [accGo]
      rw [if_neg (by simp), List.nil_append]
    rw [hstep]
    exact (accGo_chain C docUri node contentStart shardId rest [p]
      (0 + C.tokenCounter p.text) (by simp) (by simpa using hchain)).1

/-- C4, amended: the chunker performs plain greedy accumulation at
paragraph boundaries with no overlap seeding — for every chunker whose
fence detector reports well-formed regions (start ≤ end, as the real one
does), consecutive chunks of `chunkNode` are disjoint: each chunk ends at
or before the next one starts, so no chunk is seeded with any overlap
region from its predecessor, and the configured `overlapTokens` is never
consulted. -/
theorem C4_chunks_disjoint (C : Chunker) (docUri : String) (node : HeadingNode)
    (normalizedText : List Char) (shardId : Nat)
    (hwf : ∀ t r, r ∈ C.detect t → r.startChar ≤ r.endChar) :
    List.Chain' (fun c1 c2 => c1.endChar ≤ c2.startChar)
      (chunkNode C docUri node normalizedText shardId) := by
  unfold chunkNode
  by_cases h1 : (match node.children.head? with
    | some c => c.startChar
    | none => node.endChar) ≤ findContentStart node normalizedText
  · rw [if_pos h1]
    exact List.chain'_nil
  · rw [if_neg h1]
    by_cases h2 : (jsTrimList (jsSlice normalizedText
        (findContentStart node normalizedText)
        (match node.children.head? with
          | some c => c.startChar
          | none => node.endChar))).length = 0
    · rw [if_pos h2]
      exact List.chain'_nil
    · rw [if_neg h2]
      refine accumulateChunks_chain C docUri node _ shardId _ ?_
      exact (splitGo_chain _ _ (fun r hr => hwf _ r hr) _ 0).2

/-- C4, witness: the amended theorem applied to a chunker whose fence
detector reports no fences, on a two-paragraph node. -/
theorem C4_chunks_disjoint_witness :
    List.Chain' (fun c1 c2 => c1.endChar ≤ c2.startChar)
      (chunkNode { sampleChunker with detect := fun _ => [] } "t.md"
        (.mk "n" 1 "T" "T" 0 10 []) "# T\nA\n\nB\n".data 0) :=
  C4_chunks_disjoint { sampleChunker with detect := fun _ => [] } "t.md"
    (.mk "n" 1 "T" "T" 0 10 []) "# T\nA\n\nB\n".data 0
    (fun _ r hr => absurd hr (List.not_mem_nil r))


end MSRL
